import Mathlib

set_option maxHeartbeats 1000000

/-! Verification development for the ratio-noti repository.

Shallow embedding, over exact rational arithmetic, of the effective-price /
slippage engine (src/ratio.rs) and the threshold-monitor state machine
(src/monitor.rs).  Machine floats are modelled as rationals; timestamps as
integers; fallible Rust functions return Except; the imperative loops are
written as structural recursions that check the loop break condition at the
head of each iteration exactly as the source does. -/

/-- One order book level, a (price, quantity) pair.  Mirrors the Rust
(f64, f64) entries of OrderBookInfo.bids / OrderBookInfo.asks. -/
abbrev BookLevel : Type := ℚ × ℚ

/-- Side of the book to walk, from src/ratio.rs (enum OrderSide). -/
inductive OrderSide where
  | Buy : OrderSide
  | Sell : OrderSide
deriving DecidableEq, Repr

/-- Order book snapshot, from src/binance.rs (struct OrderBookInfo).
best_bid / best_ask are stored fields; get_order_book sets them to the first
level price, defaulting to 0 for an empty side. -/
structure OrderBookInfo where
  symbol : String
  best_bid : ℚ
  best_ask : ℚ
  bids : List BookLevel
  asks : List BookLevel
deriving DecidableEq, Repr

/-- The InsufficientLiquidity failure raised by calculate_effective_price
(the anyhow::bail! at src/ratio.rs lines 178-186): it carries the requested
volume and the available (filled) volume. -/
structure InsufficientLiquidity where
  requested : ℚ
  available : ℚ
deriving DecidableEq, Repr

/-- Levels walked for a side: Buy consumes asks, Sell consumes bids
(src/ratio.rs lines 158-161). -/
def sideLevels (order_book : OrderBookInfo) : OrderSide → List BookLevel
  | OrderSide.Buy => order_book.asks
  | OrderSide.Sell => order_book.bids

/-- Best price for a side (src/ratio.rs lines 158-161). -/
def sideBest (order_book : OrderBookInfo) : OrderSide → ℚ
  | OrderSide.Buy => order_book.best_ask
  | OrderSide.Sell => order_book.best_bid

/-- The fill loop of calculate_effective_price (src/ratio.rs lines 163-176):
walk levels from the best price, breaking as soon as remaining_volume <= 0,
filling min(remaining, quantity) at each level.  Returns the final
(total_cost, filled_volume) accumulator pair. -/
def fillLevels : List BookLevel → ℚ → ℚ × ℚ
  | [], _ => (0, 0)
  | (price, quantity) :: rest, remaining_volume =>
    if remaining_volume ≤ 0 then (0, 0)
    else
      let fill_qty := min remaining_volume quantity
      let cf := fillLevels rest (remaining_volume - fill_qty)
      (fill_qty * price + cf.1, fill_qty + cf.2)

/-- Number of levels the fill loop actually touches: a level is touched when
the loop body runs for it, i.e. when remaining_volume > 0 on entry.  Same
recursion structure as fillLevels, counting iterations. -/
def fillLevelsTouched : List BookLevel → ℚ → ℕ
  | [], _ => 0
  | (_, quantity) :: rest, remaining_volume =>
    if remaining_volume ≤ 0 then 0
    else 1 + fillLevelsTouched rest (remaining_volume - min remaining_volume quantity)

/-- calculate_depth_consumed (src/ratio.rs lines 195-208): counts levels,
decrementing remaining by each level's full listed quantity. -/
def calculate_depth_consumed : List BookLevel → ℚ → ℕ
  | [], _ => 0
  | (_, quantity) :: rest, remaining =>
    if remaining ≤ 0 then 0
    else 1 + calculate_depth_consumed rest (remaining - quantity)

/-- calculate_effective_price (src/ratio.rs lines 153-192): run the fill
loop, fail with InsufficientLiquidity when filled_volume < volume, otherwise
return (total_cost / filled_volume, slippage percentage). -/
def calculate_effective_price (order_book : OrderBookInfo) (volume : ℚ)
    (side : OrderSide) : Except InsufficientLiquidity (ℚ × ℚ) :=
  let levels := sideLevels order_book side
  let best_price := sideBest order_book side
  let cf := fillLevels levels volume
  if cf.2 < volume then
    Except.error ⟨volume, cf.2⟩
  else
    let effective_price := cf.1 / cf.2
    let slippage_percentage := |(effective_price - best_price) / best_price| * 100
    Except.ok (effective_price, slippage_percentage)

/-- Total quantity listed across all levels of one side. -/
def totalQty (levels : List BookLevel) : ℚ :=
  (levels.map Prod.snd).sum

/-- Effective price realized by filling volume V: total cost over filled
volume, exactly the division performed by calculate_effective_price. -/
def effPriceAt (levels : List BookLevel) (volume : ℚ) : ℚ :=
  (fillLevels levels volume).1 / (fillLevels levels volume).2

/-- Price of the worst (most expensive) level touched by a fill of the given
volume: the greatest price among the first calculate_depth_consumed levels. -/
def worstTouchedPrice (levels : List BookLevel) (volume : ℚ) : ℚ :=
  ((levels.take (calculate_depth_consumed levels volume)).map Prod.fst).foldr max 0

-- Basic lemmas about the fill loop.

theorem fillLevels_nonpos (levels : List BookLevel) {V : ℚ} (hV : V ≤ 0) :
    fillLevels levels V = (0, 0) := by
  cases levels with
  | nil => rfl
  | cons l rest =>
    obtain ⟨p, q⟩ := l
    simp [fillLevels, hV]

theorem calculate_depth_consumed_nonpos (levels : List BookLevel) {V : ℚ}
    (hV : V ≤ 0) : calculate_depth_consumed levels V = 0 := by
  cases levels with
  | nil => rfl
  | cons l rest =>
    obtain ⟨p, q⟩ := l
    simp [calculate_depth_consumed, hV]

theorem fillLevelsTouched_nonpos (levels : List BookLevel) {V : ℚ}
    (hV : V ≤ 0) : fillLevelsTouched levels V = 0 := by
  cases levels with
  | nil => rfl
  | cons l rest =>
    obtain ⟨p, q⟩ := l
    simp [fillLevelsTouched, hV]

/-- The depth-consumed counter agrees with the number of levels the fill
loop touches, on every level list and every volume: both loops break at the
same iteration because the sign of the remaining volume evolves
identically. -/
theorem depth_consumed_eq_touched (levels : List BookLevel) (V : ℚ) :
    calculate_depth_consumed levels V = fillLevelsTouched levels V := by
  induction levels generalizing V with
  | nil => rfl
  | cons l rest ih =>
    obtain ⟨p, q⟩ := l
    by_cases hV : V ≤ 0
    · simp [calculate_depth_consumed, fillLevelsTouched, hV]
    · simp only [calculate_depth_consumed, fillLevelsTouched, if_neg hV]
      by_cases hq : q ≤ V
      · have : min V q = q := min_eq_right hq
        rw [this, ih]
      · have hmin : min V q = V := min_eq_left (le_of_not_le hq)
        have h1 : calculate_depth_consumed rest (V - q) = 0 :=
          calculate_depth_consumed_nonpos rest (by linarith [le_of_not_le hq])
        have h2 : fillLevelsTouched rest (V - min V q) = 0 := by
          rw [hmin]
          exact fillLevelsTouched_nonpos rest (by linarith)
        rw [h1, h2]

/-- Claim C2 (counterexample to the claim as stated): there is no order book
side and volume on which the depth-consumed counter exceeds the number of
levels touched by the effective-price fill loop — the two procedures agree
everywhere, so in particular no V > 0 with sufficient liquidity separates
them. -/
theorem depth_overcount_counterexample :
    ¬ ∃ (levels : List BookLevel) (V : ℚ), 0 < V ∧ V ≤ totalQty levels ∧
      fillLevelsTouched levels V < calculate_depth_consumed levels V := by
  rintro ⟨levels, V, -, -, hlt⟩
  rw [depth_consumed_eq_touched] at hlt
  exact lt_irrefl _ hlt

/-- Claim C2 (amended): the two level-counting procedures are equivalent —
for every level list and every requested volume, calculate_depth_consumed
returns exactly the number of levels touched by the effective-price fill
loop; decrementing by the full listed quantity never changes the break
point, because a level where the full quantity overshoots is in both
procedures the last level processed. -/
theorem depth_consumed_equiv_fill_touched :
    ∀ (levels : List BookLevel) (V : ℚ),
      calculate_depth_consumed levels V = fillLevelsTouched levels V :=
  fun levels V => depth_consumed_eq_touched levels V

-- Unfolding lemma for one fill-loop iteration.

theorem fillLevels_cons_pos {p q V : ℚ} {rest : List BookLevel} (hV : ¬ V ≤ 0) :
    fillLevels ((p, q) :: rest) V =
      (min V q * p + (fillLevels rest (V - min V q)).1,
       min V q + (fillLevels rest (V - min V q)).2) := by
  simp [fillLevels, hV]

theorem totalQty_nil : totalQty [] = 0 := rfl

theorem totalQty_cons (l : BookLevel) (rest : List BookLevel) :
    totalQty (l :: rest) = l.2 + totalQty rest := by
  simp [totalQty]

theorem totalQty_nonneg {levels : List BookLevel}
    (hq : ∀ l ∈ levels, 0 ≤ l.2) : 0 ≤ totalQty levels := by
  induction levels with
  | nil => simp [totalQty]
  | cons l rest ih =>
    have h1 : 0 ≤ l.2 := hq l (by simp)
    have h2 : 0 ≤ totalQty rest := ih (fun x hx => hq x (List.mem_cons_of_mem _ hx))
    rw [totalQty_cons]
    linarith

/-- The filled volume returned by the fill loop is min(V, total listed
quantity) whenever quantities are nonnegative. -/
theorem fillLevels_filled_eq_min {levels : List BookLevel}
    (hq : ∀ l ∈ levels, 0 ≤ l.2) {V : ℚ} (hV : 0 ≤ V) :
    (fillLevels levels V).2 = min V (totalQty levels) := by
  induction levels generalizing V with
  | nil => simp [fillLevels, totalQty, min_eq_right hV]
  | cons l rest ih =>
    obtain ⟨p, q⟩ := l
    have hq0 : 0 ≤ q := hq (p, q) (by simp)
    have hqrest : ∀ x ∈ rest, 0 ≤ x.2 := fun x hx => hq x (List.mem_cons_of_mem _ hx)
    have htr : 0 ≤ totalQty rest := totalQty_nonneg hqrest
    by_cases hV0 : V ≤ 0
    · have hVz : V = 0 := le_antisymm hV0 hV
      subst hVz
      rw [fillLevels_nonpos _ le_rfl, totalQty_cons]
      have hm : min (0 : ℚ) (q + totalQty rest) = 0 := min_eq_left (by linarith)
      rw [hm]
    · rw [fillLevels_cons_pos hV0, totalQty_cons]
      have hmle : min V q ≤ V := min_le_left _ _
      have hrec := ih hqrest (V := V - min V q) (by linarith)
      simp only at hrec ⊢
      rw [hrec]
      rcases le_total V q with hcase | hcase
      · rw [min_eq_left hcase]
        have : V - V = 0 := by ring
        rw [this, min_eq_left htr]
        rw [min_eq_left (by linarith : V ≤ q + totalQty rest)]
        ring
      · rw [min_eq_right hcase]
        rcases le_total (V - q) (totalQty rest) with hc2 | hc2
        · rw [min_eq_left hc2, min_eq_left (by linarith : V ≤ q + totalQty rest)]
          ring
        · rw [min_eq_right hc2, min_eq_right (by linarith : q + totalQty rest ≤ V)]

/-- Claim C3: whenever the total quantity across the walked side's levels is
less than the requested volume, calculate_effective_price fails with
InsufficientLiquidity — never a partial result — and the error carries the
requested volume and the total available (filled) volume, which equals the
whole book's quantity because the scan runs over every level. -/
theorem insufficient_liquidity_error (order_book : OrderBookInfo) (V : ℚ)
    (side : OrderSide)
    (hq : ∀ l ∈ sideLevels order_book side, 0 ≤ l.2)
    (hlt : totalQty (sideLevels order_book side) < V) :
    calculate_effective_price order_book V side =
      Except.error ⟨V, totalQty (sideLevels order_book side)⟩ := by
  have ht : 0 ≤ totalQty (sideLevels order_book side) := totalQty_nonneg hq
  have hV : 0 ≤ V := le_of_lt (lt_of_le_of_lt ht hlt)
  have hfill : (fillLevels (sideLevels order_book side) V).2 =
      totalQty (sideLevels order_book side) := by
    rw [fillLevels_filled_eq_min hq hV]
    exact min_eq_right (le_of_lt hlt)
  simp only [calculate_effective_price]
  rw [hfill, if_pos hlt]

/-- Witness for C3, the spec's Scenario B: asks = [(100,1),(101,1)], V = 5
fails with InsufficientLiquidity carrying requested = 5, available = 2. -/
theorem insufficient_liquidity_error_witness :
    calculate_effective_price
        ⟨"B", 0, 100, [], [(100, 1), (101, 1)]⟩ 5 OrderSide.Buy =
      Except.error ⟨5, 2⟩ := by
  have h := insufficient_liquidity_error
      ⟨"B", 0, 100, [], [(100, 1), (101, 1)]⟩ 5 OrderSide.Buy
      (by decide) (by norm_num [sideLevels, totalQty])
  have h2 : totalQty (sideLevels ⟨"B", 0, 100, [], [(100, 1), (101, 1)]⟩
      OrderSide.Buy) = 2 := by norm_num [sideLevels, totalQty]
  rw [h2] at h
  exact h

/-- Claim C8, the spec's Scenario A: asks = [(100,1),(101,2)], V = 2 fills
1 unit at 100 plus 1 unit at 101 (total cost 201, filled 2), returning
effective price 100.5 = 201/2, slippage 0.5% = 1/2, with 2 levels of depth
consumed. -/
theorem scenario_a_exact :
    calculate_effective_price
        ⟨"A", 0, 100, [], [(100, 1), (101, 2)]⟩ 2 OrderSide.Buy =
      Except.ok (201 / 2, 1 / 2) ∧
    fillLevels [(100, 1), (101, 2)] 2 = (201, 2) ∧
    calculate_depth_consumed [(100, 1), (101, 2)] 2 = 2 := by
  refine ⟨?_, by norm_num [fillLevels], by norm_num [calculate_depth_consumed]⟩
  norm_num [calculate_effective_price, sideLevels, sideBest, fillLevels, abs]

/-- Claim C10: at requested volume 0, the fill loop exits immediately with
filled volume 0, the InsufficientLiquidity guard (filled < volume, i.e.
0 < 0) does not fire, and the function returns Ok with the unguarded
division 0/0 as effective price (NaN under IEEE floats; the rational model
evaluates the same expression totally). -/
theorem zero_volume_returns_division_by_zero (order_book : OrderBookInfo)
    (side : OrderSide) :
    fillLevels (sideLevels order_book side) 0 = (0, 0) ∧
    calculate_effective_price order_book 0 side =
      Except.ok ((0 : ℚ) / (0 : ℚ),
        |((0 : ℚ) / (0 : ℚ) - sideBest order_book side) /
            sideBest order_book side| * 100) := by
  have h0 : fillLevels (sideLevels order_book side) 0 = (0, 0) :=
    fillLevels_nonpos _ le_rfl
  refine ⟨h0, ?_⟩
  simp [calculate_effective_price, h0]

-- Cost bounds for the fill loop.

theorem fillLevels_cost_ge {levels : List BookLevel} {p0 : ℚ}
    (hp : ∀ l ∈ levels, p0 ≤ l.1) (hq : ∀ l ∈ levels, 0 ≤ l.2)
    {V : ℚ} (hV : 0 ≤ V) :
    p0 * (fillLevels levels V).2 ≤ (fillLevels levels V).1 := by
  induction levels generalizing V with
  | nil => simp [fillLevels]
  | cons l rest ih =>
    obtain ⟨p, q⟩ := l
    by_cases hV0 : V ≤ 0
    · rw [fillLevels_nonpos _ hV0]
      simp
    · rw [fillLevels_cons_pos hV0]
      have hp0 : p0 ≤ p := hp (p, q) (by simp)
      have hq0 : 0 ≤ q := hq (p, q) (by simp)
      have hf : 0 ≤ min V q := le_min hV hq0
      have hrec := ih (fun x hx => hp x (List.mem_cons_of_mem _ hx))
        (fun x hx => hq x (List.mem_cons_of_mem _ hx))
        (V := V - min V q) (by linarith [min_le_left V q])
      simp only
      nlinarith [hrec, mul_le_mul_of_nonneg_left hp0 hf]

theorem fillLevels_cost_le {levels : List BookLevel} {P : ℚ}
    (hp : ∀ l ∈ levels, l.1 ≤ P) (hq : ∀ l ∈ levels, 0 ≤ l.2)
    {V : ℚ} (hV : 0 ≤ V) :
    (fillLevels levels V).1 ≤ P * (fillLevels levels V).2 := by
  induction levels generalizing V with
  | nil => simp [fillLevels]
  | cons l rest ih =>
    obtain ⟨p, q⟩ := l
    by_cases hV0 : V ≤ 0
    · rw [fillLevels_nonpos _ hV0]
      simp
    · rw [fillLevels_cons_pos hV0]
      have hp0 : p ≤ P := hp (p, q) (by simp)
      have hq0 : 0 ≤ q := hq (p, q) (by simp)
      have hf : 0 ≤ min V q := le_min hV hq0
      have hrec := ih (fun x hx => hp x (List.mem_cons_of_mem _ hx))
        (fun x hx => hq x (List.mem_cons_of_mem _ hx))
        (V := V - min V q) (by linarith [min_le_left V q])
      simp only
      nlinarith [hrec, mul_le_mul_of_nonneg_left hp0 hf]

/-- Marginal-cost bound: filling from V1 up to V2 only ever touches levels
priced at least p0, so the extra cost is at least p0 times the extra filled
volume. -/
theorem fillLevels_cost_margin {levels : List BookLevel} {p0 : ℚ}
    (hp : ∀ l ∈ levels, p0 ≤ l.1) (hq : ∀ l ∈ levels, 0 ≤ l.2)
    {V₁ V₂ : ℚ} (h1 : 0 ≤ V₁) (h12 : V₁ ≤ V₂) :
    p0 * ((fillLevels levels V₂).2 - (fillLevels levels V₁).2) ≤
      (fillLevels levels V₂).1 - (fillLevels levels V₁).1 := by
  induction levels generalizing V₁ V₂ with
  | nil => simp [fillLevels]
  | cons l rest ih =>
    obtain ⟨p, q⟩ := l
    by_cases hV1 : V₁ ≤ 0
    · rw [fillLevels_nonpos _ hV1]
      simpa using fillLevels_cost_ge hp hq (le_trans h1 h12)
    · have hV2 : ¬ V₂ ≤ 0 := fun h => hV1 (le_trans h12 h)
      rw [fillLevels_cons_pos hV1, fillLevels_cons_pos hV2]
      simp only
      have hp0 : p0 ≤ p := hp (p, q) (by simp)
      have hq0 : 0 ≤ q := hq (p, q) (by simp)
      have hf12 : min V₁ q ≤ min V₂ q := min_le_min h12 le_rfl
      have hW1 : 0 ≤ V₁ - min V₁ q := by linarith [min_le_left V₁ q]
      have hW12 : V₁ - min V₁ q ≤ V₂ - min V₂ q := by
        rcases le_total V₁ q with hc | hc
        · rcases le_total V₂ q with hc2 | hc2
          · rw [min_eq_left hc, min_eq_left hc2]
            simp
          · rw [min_eq_left hc, min_eq_right hc2]
            linarith
        · rw [min_eq_right hc, min_eq_right (le_trans hc h12)]
          linarith
      have hrec := ih (fun x hx => hp x (List.mem_cons_of_mem _ hx))
        (fun x hx => hq x (List.mem_cons_of_mem _ hx)) hW1 hW12
      nlinarith [hrec, mul_le_mul_of_nonneg_right hp0 (sub_nonneg.mpr hf12)]

/-- Core monotonicity: with levels sorted by nondecreasing price, the cost
of filling V1 compared at rate V2 never exceeds the cost of filling V2
compared at rate V1 (i.e. cost(V1)/V1 <= cost(V2)/V2 before dividing). -/
theorem fillLevels_cost_ratio_mono {levels : List BookLevel}
    (hsort : (levels.map Prod.fst).Pairwise (· ≤ ·))
    (hq : ∀ l ∈ levels, 0 ≤ l.2)
    {V₁ V₂ : ℚ} (h1 : 0 < V₁) (h12 : V₁ ≤ V₂) (h2 : V₂ ≤ totalQty levels) :
    (fillLevels levels V₁).1 * V₂ ≤ (fillLevels levels V₂).1 * V₁ := by
  induction levels generalizing V₁ V₂ with
  | nil =>
    exfalso
    rw [totalQty_nil] at h2
    linarith
  | cons l rest ih =>
    obtain ⟨p, q⟩ := l
    have hV1 : ¬ V₁ ≤ 0 := not_le.mpr h1
    have hV2 : ¬ V₂ ≤ 0 := not_le.mpr (lt_of_lt_of_le h1 h12)
    have hq0 : 0 ≤ q := hq (p, q) (by simp)
    have hqrest : ∀ x ∈ rest, 0 ≤ x.2 := fun x hx => hq x (List.mem_cons_of_mem _ hx)
    have htr : 0 ≤ totalQty rest := totalQty_nonneg hqrest
    have hsort' : (p :: rest.map Prod.fst).Pairwise (· ≤ ·) := by
      simpa using hsort
    obtain ⟨hhead, htail⟩ := List.pairwise_cons.mp hsort'
    have hp_rest : ∀ x ∈ rest, p ≤ x.1 :=
      fun x hx => hhead x.1 (List.mem_map_of_mem Prod.fst hx)
    have hp_cons : ∀ x ∈ (p, q) :: rest, p ≤ x.1 := by
      intro x hx
      rcases List.mem_cons.mp hx with h | h
      · rw [h]
      · exact hp_rest x h
    rw [totalQty_cons] at h2
    rcases le_or_lt V₁ q with hc | hc
    · -- the V1 fill stops inside the first level: cost(V1) = p * V1
      have hc1 : (fillLevels ((p, q) :: rest) V₁).1 = V₁ * p := by
        rw [fillLevels_cons_pos hV1, min_eq_left hc]
        simp [sub_self, fillLevels_nonpos rest (le_refl (0 : ℚ))]
      have hfe2 : (fillLevels ((p, q) :: rest) V₂).2 = V₂ := by
        rw [fillLevels_filled_eq_min hq (le_of_lt (lt_of_lt_of_le h1 h12))]
        rw [totalQty_cons]
        exact min_eq_left h2
      have hge := fillLevels_cost_ge hp_cons hq
        (V := V₂) (le_of_lt (lt_of_lt_of_le h1 h12))
      rw [hfe2] at hge
      rw [hc1]
      nlinarith [hge, h1]
    · -- the V1 fill consumes the whole first level: recurse on the tail
      have hf1 : min V₁ q = q := min_eq_right (le_of_lt hc)
      have hf2 : min V₂ q = q := min_eq_right (le_of_lt (lt_of_lt_of_le hc h12))
      rw [fillLevels_cons_pos hV1, fillLevels_cons_pos hV2, hf1, hf2]
      simp only
      have hW1 : 0 < V₁ - q := by linarith
      have hW12 : V₁ - q ≤ V₂ - q := by linarith
      have hW2t : V₂ - q ≤ totalQty rest := by linarith
      have hIH := ih htail hqrest hW1 hW12 hW2t
      have hn1 : (fillLevels rest (V₁ - q)).2 = V₁ - q := by
        rw [fillLevels_filled_eq_min hqrest (le_of_lt hW1)]
        exact min_eq_left (by linarith)
      have hn2 : (fillLevels rest (V₂ - q)).2 = V₂ - q := by
        rw [fillLevels_filled_eq_min hqrest (by linarith)]
        exact min_eq_left hW2t
      have hmargin := fillLevels_cost_margin hp_rest hqrest
        (le_of_lt hW1) hW12
      rw [hn1, hn2] at hmargin
      nlinarith [hIH, mul_le_mul_of_nonneg_left hmargin hq0]

/-- The fill loop ignores every level past the depth-consumed prefix: its
result is already determined by that prefix. -/
theorem fillLevels_take_depth (levels : List BookLevel) (V : ℚ) :
    fillLevels (levels.take (calculate_depth_consumed levels V)) V =
      fillLevels levels V := by
  induction levels generalizing V with
  | nil => simp
  | cons l rest ih =>
    obtain ⟨p, q⟩ := l
    by_cases hV : V ≤ 0
    · rw [calculate_depth_consumed_nonpos _ hV, List.take_zero,
        fillLevels_nonpos ([] : List BookLevel) hV,
        fillLevels_nonpos ((p, q) :: rest) hV]
    · have hd : calculate_depth_consumed ((p, q) :: rest) V =
          calculate_depth_consumed rest (V - q) + 1 := by
        simp [calculate_depth_consumed, hV, Nat.add_comm]
      rw [hd, List.take_succ_cons, fillLevels_cons_pos hV, fillLevels_cons_pos hV]
      rcases le_total q V with hc | hc
      · rw [min_eq_right hc, ih]
      · rw [min_eq_left hc]
        rw [calculate_depth_consumed_nonpos rest (by linarith : V - q ≤ 0)]
        rw [sub_self]
        rw [fillLevels_nonpos rest le_rfl]
        rfl

theorem le_foldr_max {l : List ℚ} {a : ℚ} (ha : a ∈ l) : a ≤ l.foldr max 0 := by
  induction l with
  | nil => cases ha
  | cons b t ih =>
    rcases List.mem_cons.mp ha with h | h
    · rw [h]
      exact le_max_left _ _
    · exact le_trans (ih h) (le_max_right _ _)

/-- Claim C4: for an ask book sorted best-first with strictly increasing
prices and positive quantities, and best_ask the first level price as
get_order_book sets it, every fillable volume V > 0 yields an Ok result
whose effective buy price lies between the best ask price and the price of
the worst level touched, and the effective price is non-decreasing in the
requested volume. -/
theorem effective_price_bounds_and_monotone (order_book : OrderBookInfo)
    (hsort : List.Chain' (· < ·) (order_book.asks.map Prod.fst))
    (hq : ∀ l ∈ order_book.asks, 0 < l.2)
    (hbest : order_book.best_ask = ((order_book.asks.head?).map Prod.fst).getD 0) :
    (∀ V : ℚ, 0 < V → V ≤ totalQty order_book.asks →
      (∃ slip, calculate_effective_price order_book V OrderSide.Buy =
          Except.ok (effPriceAt order_book.asks V, slip)) ∧
      order_book.best_ask ≤ effPriceAt order_book.asks V ∧
      effPriceAt order_book.asks V ≤ worstTouchedPrice order_book.asks V) ∧
    (∀ V₁ V₂ : ℚ, 0 < V₁ → V₁ ≤ V₂ → V₂ ≤ totalQty order_book.asks →
      effPriceAt order_book.asks V₁ ≤ effPriceAt order_book.asks V₂) := by
  have hq' : ∀ l ∈ order_book.asks, 0 ≤ l.2 := fun l hl => le_of_lt (hq l hl)
  have hpair : (order_book.asks.map Prod.fst).Pairwise (· ≤ ·) :=
    (List.chain'_iff_pairwise.mp hsort).imp le_of_lt
  constructor
  · intro V hV hVt
    have hfe : (fillLevels order_book.asks V).2 = V := by
      rw [fillLevels_filled_eq_min hq' (le_of_lt hV)]
      exact min_eq_left hVt
    have hVpos : 0 < (fillLevels order_book.asks V).2 := by
      rw [hfe]
      exact hV
    refine ⟨?_, ?_, ?_⟩
    · refine ⟨|(effPriceAt order_book.asks V - order_book.best_ask) /
          order_book.best_ask| * 100, ?_⟩
      have hs : sideLevels order_book OrderSide.Buy = order_book.asks := rfl
      have hb : sideBest order_book OrderSide.Buy = order_book.best_ask := rfl
      simp only [calculate_effective_price, hs, hb]
      rw [if_neg (by rw [hfe]; exact lt_irrefl V)]
      simp [effPriceAt]
    · obtain ⟨⟨p, q⟩, tl, hA⟩ : ∃ hd tl, order_book.asks = hd :: tl := by
        cases hAA : order_book.asks with
        | nil =>
          exfalso
          rw [hAA, totalQty_nil] at hVt
          linarith
        | cons hd tl => exact ⟨hd, tl, rfl⟩
      have hbp : order_book.best_ask = p := by
        rw [hbest, hA]
        rfl
      have hp_cons : ∀ x ∈ order_book.asks, p ≤ x.1 := by
        have hpair2 := hpair
        rw [hA] at hpair2
        have hpair' : (p :: tl.map Prod.fst).Pairwise (· ≤ ·) := by
          simpa using hpair2
        obtain ⟨hhead, -⟩ := List.pairwise_cons.mp hpair'
        intro x hx
        rw [hA] at hx
        rcases List.mem_cons.mp hx with h | h
        · rw [h]
        · exact hhead x.1 (List.mem_map_of_mem Prod.fst h)
      have hge := fillLevels_cost_ge hp_cons hq' (le_of_lt hV)
      rw [hbp, effPriceAt, le_div_iff₀ hVpos]
      exact hge
    · rw [effPriceAt, div_le_iff₀ hVpos]
      have htp : ∀ x ∈ order_book.asks.take
          (calculate_depth_consumed order_book.asks V),
          x.1 ≤ worstTouchedPrice order_book.asks V :=
        fun x hx => le_foldr_max (List.mem_map_of_mem Prod.fst hx)
      have htq : ∀ x ∈ order_book.asks.take
          (calculate_depth_consumed order_book.asks V), 0 ≤ x.2 :=
        fun x hx => hq' x (List.take_subset _ _ hx)
      have hle := fillLevels_cost_le htp htq (le_of_lt hV)
      rw [fillLevels_take_depth] at hle
      exact hle
  · intro V₁ V₂ h1 h12 h2
    have h1' : 0 < V₂ := lt_of_lt_of_le h1 h12
    have hfe1 : (fillLevels order_book.asks V₁).2 = V₁ := by
      rw [fillLevels_filled_eq_min hq' (le_of_lt h1)]
      exact min_eq_left (le_trans h12 h2)
    have hfe2 : (fillLevels order_book.asks V₂).2 = V₂ := by
      rw [fillLevels_filled_eq_min hq' (le_of_lt h1')]
      exact min_eq_left h2
    rw [effPriceAt, effPriceAt, hfe1, hfe2, div_le_div_iff₀ h1 h1']
    exact fillLevels_cost_ratio_mono hpair hq' h1 h12 h2

/-- Witness for C4 at the concrete book asks = [(100,1),(101,2)], V = 2 and
the volume pair V1 = 1, V2 = 2. -/
theorem effective_price_bounds_and_monotone_witness :
    ((∃ slip, calculate_effective_price
          ⟨"A", 0, 100, [], [(100, 1), (101, 2)]⟩ 2 OrderSide.Buy =
        Except.ok (effPriceAt [(100, 1), (101, 2)] 2, slip)) ∧
      (100 : ℚ) ≤ effPriceAt [(100, 1), (101, 2)] 2 ∧
      effPriceAt [(100, 1), (101, 2)] 2 ≤
        worstTouchedPrice [(100, 1), (101, 2)] 2) ∧
    effPriceAt [(100, 1), (101, 2)] 1 ≤ effPriceAt [(100, 1), (101, 2)] 2 := by
  have h := effective_price_bounds_and_monotone
    ⟨"A", 0, 100, [], [(100, 1), (101, 2)]⟩
    (by norm_num [List.chain'_cons]) (by decide) rfl
  exact ⟨h.1 2 (by norm_num) (by norm_num [totalQty]),
    h.2 1 2 (by norm_num) (by norm_num) (by norm_num [totalQty])⟩

-- Threshold monitor (src/monitor.rs).

/-- One rolling-history entry (src/monitor.rs, struct RatioSnapshot). -/
structure RatioSnapshot where
  ratio : ℚ
  timestamp : ℤ
deriving DecidableEq, Repr

/-- Baseline selection inside check_thresholds (src/monitor.rs lines
120-132): the first history entry with timestamp >= window_start, falling
back to the first retained entry (history.first()). -/
def findBaseline (history : List RatioSnapshot) (window_start : ℤ) :
    Option RatioSnapshot :=
  (history.find? (fun s => decide (window_start ≤ s.timestamp))).orElse
    (fun _ => history.head?)

/-- The per-threshold alert loop of check_thresholds (src/monitor.rs lines
138-160), with delivery outcomes supplied by the send oracle: a breached,
not-yet-triggered threshold is alerted first and marked as triggered only
after a successful send; a failed send makes the Rust ? operator abort the
loop with the marks accumulated so far.  Returns (thresholds whose alert was
delivered in order, triggered thresholds afterwards, whether the loop
finished without a delivery error). -/
def checkThresholdsGo (send : ℚ → Bool) (abs_change : ℚ) :
    List ℚ → List ℚ → List ℚ × List ℚ × Bool
  | [], triggered => ([], triggered, true)
  | threshold :: rest, triggered =>
    if threshold ≤ abs_change ∧ threshold ∉ triggered then
      if send threshold then
        let r := checkThresholdsGo send abs_change rest (triggered ++ [threshold])
        (threshold :: r.1, r.2.1, r.2.2)
      else ([], triggered, false)
    else checkThresholdsGo send abs_change rest triggered

/-- check_thresholds (src/monitor.rs lines 114-162) for one pair: select the
baseline (skipping the tick when the history is empty), compute the
percentage change against the current ratio, and run the threshold loop on
its absolute value. -/
def check_thresholds (send : ℚ → Bool) (thresholds : List ℚ)
    (window_start : ℤ) (history : List RatioSnapshot) (current_ratio : ℚ)
    (triggered : List ℚ) : List ℚ × List ℚ × Bool :=
  match findBaseline history window_start with
  | none => ([], triggered, true)
  | some baseline =>
    let change_pct := (current_ratio - baseline.ratio) / baseline.ratio * 100
    checkThresholdsGo send |change_pct| thresholds triggered

/-- Consecutive monitor ticks for one pair under successful delivery: each
tick runs the check_thresholds loop on that tick's absolute percentage
change, threading the triggered set; returns (all alerts in order, final
triggered set). -/
def runTicks (thresholds : List ℚ) : List ℚ → List ℚ → List ℚ × List ℚ
  | [], triggered => ([], triggered)
  | c :: cs, triggered =>
    let r := checkThresholdsGo (fun _ => true) c thresholds triggered
    let rr := runTicks thresholds cs r.2.1
    (r.1 ++ rr.1, rr.2)

/-- reset_triggered_thresholds (src/monitor.rs lines 189-191): remove the
pair's entry from the triggered-thresholds map (modelled as an association
list). -/
def reset_triggered_thresholds (triggered : List (String × List ℚ))
    (pair_name : String) : List (String × List ℚ) :=
  triggered.filter (fun e => decide (e.1 ≠ pair_name))

/-- check_periodic_notification (src/monitor.rs lines 194-210): when the
elapsed time reaches the period, send the digest; only if that send returns
Ok is the last-fire timestamp updated and every configured pair's triggered
set reset (the ? operator aborts before both on error).  Returns the new
triggered map and whether the periodic state was committed. -/
def check_periodic_notification (send_ok : Bool) (elapsed period : ℕ)
    (pairs : List String) (triggered : List (String × List ℚ)) :
    List (String × List ℚ) × Bool :=
  if period ≤ elapsed then
    if send_ok then (pairs.foldl reset_triggered_thresholds triggered, true)
    else (triggered, false)
  else (triggered, false)

/-- send_periodic_notification (src/monitor.rs lines 213-247): collect one
update per pair whose ratio computation succeeded (failures are logged and
omitted), and send the digest only when the update list is nonempty.
Returns some updates when a digest is sent, none otherwise. -/
def send_periodic_notification (results : List (String × Option ℚ)) :
    Option (List (String × ℚ)) :=
  let updates := results.filterMap (fun r => r.2.map (fun v => (r.1, v)))
  if updates.isEmpty then none else some updates

-- Baseline lemmas for C7.

theorem find_baseline_in_window {history : List RatioSnapshot}
    {window_start : ℤ}
    (hsorted : history.Pairwise (fun a b => a.timestamp ≤ b.timestamp))
    (hex : ∃ s ∈ history, window_start ≤ s.timestamp) :
    ∃ b, history.find? (fun s => decide (window_start ≤ s.timestamp)) =
        some b ∧ window_start ≤ b.timestamp ∧
      ∀ s ∈ history, window_start ≤ s.timestamp → b.timestamp ≤ s.timestamp := by
  induction history with
  | nil => obtain ⟨s, hs, -⟩ := hex; cases hs
  | cons a t ih =>
    obtain ⟨hhead, htail⟩ := List.pairwise_cons.mp hsorted
    by_cases ha : window_start ≤ a.timestamp
    · refine ⟨a, ?_, ha, ?_⟩
      · rw [List.find?_cons_of_pos _ (by simpa using ha)]
      · intro s hs _
        rcases List.mem_cons.mp hs with h | h
        · rw [h]
        · exact hhead s h
    · have hex' : ∃ s ∈ t, window_start ≤ s.timestamp := by
        obtain ⟨s, hs, hws⟩ := hex
        rcases List.mem_cons.mp hs with h | h
        · exact absurd (h ▸ hws) ha
        · exact ⟨s, h, hws⟩
      obtain ⟨b, hb, hwb, hmin⟩ := ih htail hex'
      refine ⟨b, ?_, hwb, ?_⟩
      · rw [List.find?_cons_of_neg _ (by simpa using ha)]
        exact hb
      · intro s hs hws
        rcases List.mem_cons.mp hs with h | h
        · exact absurd (h ▸ hws) ha
        · exact hmin s h hws

/-- Claim C7: with a non-empty history kept in increasing timestamp order,
the baseline is the oldest snapshot whose timestamp is at least
now - changeWindow; when no snapshot lies within the window it is the oldest
retained snapshot; and with an empty history, check_thresholds skips the
tick, emitting no alert and leaving the triggered set unchanged. -/
theorem baseline_selection (history : List RatioSnapshot) (window_start : ℤ)
    (hsorted : history.Pairwise (fun a b => a.timestamp ≤ b.timestamp)) :
    ((∃ s ∈ history, window_start ≤ s.timestamp) →
      ∃ b, findBaseline history window_start = some b ∧
        window_start ≤ b.timestamp ∧
        ∀ s ∈ history, window_start ≤ s.timestamp →
          b.timestamp ≤ s.timestamp) ∧
    (history ≠ [] → (∀ s ∈ history, s.timestamp < window_start) →
      ∃ b, findBaseline history window_start = some b ∧
        history.head? = some b ∧
        ∀ s ∈ history, b.timestamp ≤ s.timestamp) ∧
    (∀ (send : ℚ → Bool) (thresholds : List ℚ) (current_ratio : ℚ)
        (triggered : List ℚ),
      check_thresholds send thresholds window_start [] current_ratio
        triggered = ([], triggered, true)) := by
  refine ⟨?_, ?_, ?_⟩
  · intro hex
    obtain ⟨b, hb, hwb, hmin⟩ := find_baseline_in_window hsorted hex
    refine ⟨b, ?_, hwb, hmin⟩
    rw [findBaseline, hb]
    rfl
  · intro hne hall
    have hfind : history.find?
        (fun s => decide (window_start ≤ s.timestamp)) = none := by
      rw [List.find?_eq_none]
      intro s hs
      simpa using not_le.mpr (hall s hs)
    cases history with
    | nil => exact absurd rfl hne
    | cons a t =>
      obtain ⟨hhead, -⟩ := List.pairwise_cons.mp hsorted
      refine ⟨a, ?_, rfl, ?_⟩
      · rw [findBaseline, hfind]
        rfl
      · intro s hs
        rcases List.mem_cons.mp hs with h | h
        · rw [h]
        · exact hhead s h
  · intro send thresholds current_ratio triggered
    rfl

/-- Witness for C7 at history [(ratio 1, t=0), (ratio 2, t=5)] with
window_start 3: the baseline is the snapshot at t=5, and the empty-history
tick is a no-op. -/
theorem baseline_selection_witness :
    (∃ b, findBaseline [⟨1, 0⟩, ⟨2, 5⟩] 3 = some b ∧
      (3 : ℤ) ≤ b.timestamp ∧
      ∀ s ∈ [RatioSnapshot.mk 1 0, RatioSnapshot.mk 2 5],
        (3 : ℤ) ≤ s.timestamp → b.timestamp ≤ s.timestamp) ∧
    check_thresholds (fun _ => true) [5] 3 [] 1 [] = ([], [], true) := by
  have h := baseline_selection [⟨1, 0⟩, ⟨2, 5⟩] 3
    (by simp [List.pairwise_cons])
  exact ⟨h.1 ⟨⟨2, 5⟩, by simp, by norm_num⟩,
    h.2.2 (fun _ => true) [5] 1 []⟩

-- Lemmas about the threshold alert loop.

theorem checkThresholdsGo_mem_mono (send : ℚ → Bool) (c : ℚ)
    (ts : List ℚ) {trig : List ℚ} {x : ℚ} (hx : x ∈ trig) :
    x ∈ (checkThresholdsGo send c ts trig).2.1 := by
  induction ts generalizing trig with
  | nil => exact hx
  | cons t rest ih =>
    by_cases hcond : t ≤ c ∧ t ∉ trig
    · by_cases hsend : send t
      · simp only [checkThresholdsGo, if_pos hcond, if_pos hsend]
        exact ih (List.mem_append_left _ hx)
      · simp only [checkThresholdsGo, if_pos hcond, if_neg hsend]
        exact hx
    · simp only [checkThresholdsGo, if_neg hcond]
      exact ih hx

theorem checkThresholdsGo_mem_of {send : ℚ → Bool} {c : ℚ}
    {ts trig : List ℚ} {x : ℚ}
    (hx : x ∈ (checkThresholdsGo send c ts trig).2.1) :
    x ∈ trig ∨ send x = true := by
  induction ts generalizing trig with
  | nil => exact Or.inl hx
  | cons t rest ih =>
    by_cases hcond : t ≤ c ∧ t ∉ trig
    · by_cases hsend : send t
      · rw [checkThresholdsGo, if_pos hcond, if_pos hsend] at hx
        rcases ih hx with h | h
        · rcases List.mem_append.mp h with h2 | h2
          · exact Or.inl h2
          · rw [List.mem_singleton.mp h2]
            exact Or.inr (by simpa using hsend)
        · exact Or.inr h
      · rw [checkThresholdsGo, if_pos hcond, if_neg hsend] at hx
        exact Or.inl hx
    · rw [checkThresholdsGo, if_neg hcond] at hx
      exact ih hx

theorem checkThresholdsGo_count_zero (send : ℚ → Bool) (c : ℚ)
    (ts : List ℚ) {trig : List ℚ} {T : ℚ} (hT : T ∈ trig) :
    (checkThresholdsGo send c ts trig).1.count T = 0 := by
  induction ts generalizing trig with
  | nil => rfl
  | cons t rest ih =>
    by_cases hcond : t ≤ c ∧ t ∉ trig
    · have hne : t ≠ T := fun h => hcond.2 (h ▸ hT)
      by_cases hsend : send t
      · simp only [checkThresholdsGo, if_pos hcond, if_pos hsend]
        rw [List.count_cons]
        have := @ih (trig ++ [t]) (List.mem_append_left _ hT)
        simp [this, hne]
      · simp only [checkThresholdsGo, if_pos hcond, if_neg hsend]
        rfl
    · simp only [checkThresholdsGo, if_neg hcond]
      exact ih hT

theorem checkThresholdsGo_count_one (c : ℚ) {ts trig : List ℚ} {T : ℚ}
    (hmem : T ∈ ts) (hnew : T ∉ trig) (hc : T ≤ c) :
    (checkThresholdsGo (fun _ => true) c ts trig).1.count T = 1 ∧
    T ∈ (checkThresholdsGo (fun _ => true) c ts trig).2.1 := by
  induction ts generalizing trig with
  | nil => cases hmem
  | cons t rest ih =>
    by_cases ht : t = T
    · subst ht
      have hcond : t ≤ c ∧ t ∉ trig := ⟨hc, hnew⟩
      simp only [checkThresholdsGo, if_pos hcond, if_true]
      have hmem2 : t ∈ trig ++ [t] := List.mem_append_right _ (by simp)
      constructor
      · rw [List.count_cons_self]
        rw [checkThresholdsGo_count_zero (fun _ => true) c rest hmem2]
      · exact checkThresholdsGo_mem_mono (fun _ => true) c rest hmem2
    · have hmem' : T ∈ rest := by
        rcases List.mem_cons.mp hmem with h | h
        · exact absurd h.symm ht
        · exact h
      by_cases hcond : t ≤ c ∧ t ∉ trig
      · simp only [checkThresholdsGo, if_pos hcond, if_true]
        have hnew' : T ∉ trig ++ [t] := by
          intro hmem3
          rcases List.mem_append.mp hmem3 with h | h
          · exact hnew h
          · exact ht (List.mem_singleton.mp h).symm
        obtain ⟨hcount, hfinal⟩ := ih hmem' hnew'
        refine ⟨?_, hfinal⟩
        rw [List.count_cons]
        simp [hcount, ht]
      · simp only [checkThresholdsGo, if_neg hcond]
        exact ih hmem' hnew

/-- Claim C1 (counterexample to the claim as stated): from the reachable
state with empty triggered set and a one-snapshot history, a 100% change
breaches threshold 5, the send oracle fails, and check_thresholds aborts
with the triggered set still empty — the breached threshold is NOT recorded
as triggered; likewise a failed digest leaves the periodic state
uncommitted. -/
theorem notification_failure_commit_counterexample :
    check_thresholds (fun _ => false) [5] 0 [⟨1, 0⟩] 2 [] = ([], [], false) ∧
    (5 : ℚ) ∉ ([] : List ℚ) ∧
    check_periodic_notification false 10 5 ["P"] [("P", [5])] =
      ([("P", [5])], false) := by
  refine ⟨?_, by simp, by rfl⟩
  have hb : findBaseline [⟨1, 0⟩] 0 = some ⟨1, 0⟩ := rfl
  rw [check_thresholds, hb]
  norm_num [checkThresholdsGo]

/-- Claim C1 (amended): a notification failure does NOT commit the debounce
state — send_ratio_alert is awaited with ? before mark_threshold_triggered,
so a threshold whose alert delivery fails is left unrecorded (and will be
re-alerted on a later tick while the breach persists); likewise a digest
delivery failure aborts check_periodic_notification before the last-fire
timestamp update and the resets, leaving the periodic state unchanged. -/
theorem notification_failure_not_committed :
    (∀ (send : ℚ → Bool) (abs_change : ℚ) (thresholds triggered : List ℚ)
        (T : ℚ), T ∉ triggered → send T = false →
      T ∉ (checkThresholdsGo send abs_change thresholds triggered).2.1) ∧
    (∀ (elapsed period : ℕ) (pairs : List String)
        (triggered : List (String × List ℚ)), period ≤ elapsed →
      check_periodic_notification false elapsed period pairs triggered =
        (triggered, false)) := by
  constructor
  · intro send abs_change thresholds triggered T hnew hfail hmem
    rcases checkThresholdsGo_mem_of hmem with h | h
    · exact hnew h
    · rw [hfail] at h
      cases h
  · intro elapsed period pairs triggered helapsed
    rw [check_periodic_notification, if_pos helapsed]
    rfl

/-- Witness for C1 (amended) at threshold 5, change 100, failing delivery,
and a periodic tick with elapsed 10 over period 5 and failing digest. -/
theorem notification_failure_not_committed_witness :
    (5 : ℚ) ∉ (checkThresholdsGo (fun _ => false) 100 [5] []).2.1 ∧
    check_periodic_notification false 10 5 ["P"] [("P", [5])] =
      ([("P", [5])], false) :=
  ⟨notification_failure_not_committed.1 (fun _ => false) 100 [5] [] 5
      (by simp) rfl,
    notification_failure_not_committed.2 10 5 ["P"] [("P", [5])]
      (by norm_num)⟩

-- Multi-tick lemmas for C5.

theorem runTicks_count_zero (thresholds : List ℚ) (cs : List ℚ)
    {trig : List ℚ} {T : ℚ} (hT : T ∈ trig) :
    (runTicks thresholds cs trig).1.count T = 0 ∧
    T ∈ (runTicks thresholds cs trig).2 := by
  induction cs generalizing trig with
  | nil => exact ⟨rfl, hT⟩
  | cons c rest ih =>
    simp only [runTicks]
    have h1 := checkThresholdsGo_count_zero (fun _ => true) c thresholds hT
    have h2 := checkThresholdsGo_mem_mono (fun _ => true) c thresholds hT
    obtain ⟨h3, h4⟩ := ih h2
    exact ⟨by rw [List.count_append, h1, h3], h4⟩

/-- Claim C5: once a threshold T is recorded as triggered for a pair, a tick
emits no further alert for T and keeps T recorded; consequently, under a
sustained breach of T across consecutive ticks with successful delivery and
no intervening periodic reset, exactly one alert for T is emitted. -/
theorem debounce_exactly_one_alert (thresholds changes triggered0 : List ℚ)
    (T : ℚ) (hmem : T ∈ thresholds) (hnew : T ∉ triggered0)
    (hne : changes ≠ []) (hsus : ∀ c ∈ changes, T ≤ c) :
    (∀ (c : ℚ) (trig : List ℚ), T ∈ trig →
      (checkThresholdsGo (fun _ => true) c thresholds trig).1.count T = 0 ∧
      T ∈ (checkThresholdsGo (fun _ => true) c thresholds trig).2.1) ∧
    (runTicks thresholds changes triggered0).1.count T = 1 := by
  constructor
  · intro c trig hT
    exact ⟨checkThresholdsGo_count_zero (fun _ => true) c thresholds hT,
      checkThresholdsGo_mem_mono (fun _ => true) c thresholds hT⟩
  · cases changes with
    | nil => exact absurd rfl hne
    | cons c cs =>
      simp only [runTicks]
      obtain ⟨h1, h2⟩ := checkThresholdsGo_count_one c hmem hnew
        (hsus c (by simp))
      obtain ⟨h3, -⟩ := runTicks_count_zero thresholds cs h2
      rw [List.count_append, h1, h3]

/-- Witness for C5: thresholds [5], sustained changes [10, 10] from an
empty triggered set emit exactly one alert for 5; a tick starting with 5
already triggered emits none. -/
theorem debounce_exactly_one_alert_witness :
    ((checkThresholdsGo (fun _ => true) 10 [5] [5]).1.count 5 = 0 ∧
      (5 : ℚ) ∈ (checkThresholdsGo (fun _ => true) 10 [5] [5]).2.1) ∧
    (runTicks [5] [10, 10] []).1.count 5 = 1 := by
  have h := debounce_exactly_one_alert [5] [10, 10] [] 5 (by simp)
    (by simp) (by simp) (by norm_num)
  exact ⟨h.1 10 [5] (by simp), h.2⟩

-- Association-list lemmas for the periodic reset.

theorem lookup_reset_self (triggered : List (String × List ℚ)) (p : String) :
    (reset_triggered_thresholds triggered p).lookup p = none := by
  induction triggered with
  | nil => rfl
  | cons e rest ih =>
    obtain ⟨k, v⟩ := e
    simp only [reset_triggered_thresholds, List.filter_cons] at ih ⊢
    by_cases hk : k = p
    · rw [if_neg (by simp [hk])]
      exact ih
    · rw [if_pos (by simp [hk])]
      have hbk : (p == k) = false := by
        simp only [beq_eq_false_iff_ne]
        exact fun h => hk h.symm
      simpa [List.lookup, hbk] using ih

theorem lookup_none_reset (triggered : List (String × List ℚ))
    (p q : String) (hp : triggered.lookup p = none) :
    (reset_triggered_thresholds triggered q).lookup p = none := by
  induction triggered with
  | nil => rfl
  | cons e rest ih =>
    obtain ⟨k, v⟩ := e
    have hsplit : (p == k) = false ∧ rest.lookup p = none := by
      by_cases hbk : (p == k) = true
      · exfalso
        simp [List.lookup, hbk] at hp
      · have hf : (p == k) = false := by simpa using hbk
        exact ⟨hf, by simpa [List.lookup, hf] using hp⟩
    obtain ⟨hbk, hrest⟩ := hsplit
    simp only [reset_triggered_thresholds, List.filter_cons] at ih ⊢
    by_cases hkq : k = q
    · rw [if_neg (by simp [hkq])]
      exact ih hrest
    · rw [if_pos (by simp [hkq])]
      simpa [List.lookup, hbk] using ih hrest

theorem lookup_foldl_reset_none (pairs : List String)
    (triggered : List (String × List ℚ)) (p : String)
    (hp : triggered.lookup p = none) :
    (pairs.foldl reset_triggered_thresholds triggered).lookup p = none := by
  induction pairs generalizing triggered with
  | nil => exact hp
  | cons q qs ih =>
    exact ih _ (lookup_none_reset triggered p q hp)

theorem lookup_foldl_reset_mem (pairs : List String)
    (triggered : List (String × List ℚ)) {p : String} (hp : p ∈ pairs) :
    (pairs.foldl reset_triggered_thresholds triggered).lookup p = none := by
  induction pairs generalizing triggered with
  | nil => cases hp
  | cons q qs ih =>
    rcases List.mem_cons.mp hp with h | h
    · subst h
      exact lookup_foldl_reset_none qs _ p (lookup_reset_self triggered p)
    · exact ih _ h

/-- Claim C6: the triggered-threshold sets are cleared exactly by the
periodic path — when the Periodic Reporter fires (elapsed >= period, digest
delivered) every configured pair's set is removed, so a previously-triggered
threshold alerts again on the next breach; when the period has not elapsed
the state is untouched, and the per-tick threshold loop never removes a
recorded threshold. -/
theorem periodic_reset_clears_all (elapsed period : ℕ) (pairs : List String)
    (triggered : List (String × List ℚ)) :
    (period ≤ elapsed → ∀ p ∈ pairs,
      ((check_periodic_notification true elapsed period pairs
          triggered).1).lookup p = none) ∧
    (¬ period ≤ elapsed → ∀ send_ok,
      check_periodic_notification send_ok elapsed period pairs triggered =
        (triggered, false)) ∧
    (∀ (send : ℚ → Bool) (c : ℚ) (ts trig : List ℚ) (x : ℚ), x ∈ trig →
      x ∈ (checkThresholdsGo send c ts trig).2.1) ∧
    (∀ (T c : ℚ) (ts : List ℚ), T ∈ ts → T ≤ c →
      T ∈ (checkThresholdsGo (fun _ => true) c ts []).1) := by
  refine ⟨?_, ?_, ?_, ?_⟩
  · intro helapsed p hp
    rw [check_periodic_notification, if_pos helapsed, if_pos rfl]
    exact lookup_foldl_reset_mem pairs triggered hp
  · intro hn send_ok
    rw [check_periodic_notification, if_neg hn]
  · intro send c ts trig x hx
    exact checkThresholdsGo_mem_mono send c ts hx
  · intro T c ts hmem hc
    have h := (@checkThresholdsGo_count_one c ts [] T hmem (by simp) hc).1
    have : 0 < (checkThresholdsGo (fun _ => true) c ts []).1.count T := by
      rw [h]
      norm_num
    exact List.count_pos_iff.mp this

/-- Witness for C6: with pair P and threshold 5 triggered, a fired periodic
check clears P's set, a non-elapsed check leaves it unchanged, and an
untriggered breach of 5 alerts. -/
theorem periodic_reset_clears_all_witness :
    ((check_periodic_notification true 10 5 ["P"]
        [("P", [5])]).1).lookup "P" = none ∧
    check_periodic_notification false 3 5 ["P"] [("P", [5])] =
      ([("P", [5])], false) ∧
    (5 : ℚ) ∈ (checkThresholdsGo (fun _ => true) 10 [5] []).1 := by
  have h := periodic_reset_clears_all 10 5 ["P"] [("P", [5])]
  have h2 := periodic_reset_clears_all 3 5 ["P"] [("P", [5])]
  exact ⟨h.1 (by norm_num) "P" (by simp),
    h2.2.1 (by norm_num) false,
    h.2.2.2 5 10 [5] (by simp) (by norm_num)⟩

/-- Claim C9: during a periodic digest, failed pairs are omitted while every
successful pair appears in the digest; the digest message is produced
exactly when at least one pair's ratio succeeded, and suppressed when every
pair fails. -/
theorem digest_omits_failed_pairs (results : List (String × Option ℚ)) :
    ((∀ r ∈ results, r.2 = none) →
      send_periodic_notification results = none) ∧
    ((∃ r ∈ results, r.2 ≠ none) →
      send_periodic_notification results =
        some (results.filterMap (fun r => r.2.map (fun v => (r.1, v))))) ∧
    (∀ (p : String) (v : ℚ),
      (p, v) ∈ results.filterMap (fun r => r.2.map (fun v => (r.1, v))) ↔
        (p, some v) ∈ results) := by
  refine ⟨?_, ?_, ?_⟩
  · intro hall
    have hnil : results.filterMap (fun r => r.2.map (fun v => (r.1, v))) =
        [] := by
      rw [List.filterMap_eq_nil_iff]
      intro r hr
      rw [hall r hr]
      rfl
    rw [send_periodic_notification]
    simp [hnil]
  · rintro ⟨r, hr, hne⟩
    obtain ⟨k, ov⟩ := r
    cases ov with
    | none => exact absurd rfl hne
    | some v =>
      have hmem : (k, v) ∈ results.filterMap
          (fun r => r.2.map (fun v => (r.1, v))) :=
        List.mem_filterMap.mpr ⟨(k, some v), hr, rfl⟩
      have hfalse : (results.filterMap
          (fun r => r.2.map (fun v => (r.1, v)))).isEmpty = false := by
        simpa [List.isEmpty_iff] using List.ne_nil_of_mem hmem
      rw [send_periodic_notification]
      simp [hfalse]
  · intro p v
    constructor
    · intro hmem
      obtain ⟨r, hr, hfr⟩ := List.mem_filterMap.mp hmem
      obtain ⟨k, ov⟩ := r
      cases ov with
      | none => simp at hfr
      | some w =>
        simp at hfr
        obtain ⟨rfl, rfl⟩ := hfr
        exact hr
    · intro hmem
      exact List.mem_filterMap.mpr ⟨(p, some v), hmem, rfl⟩

/-- Witness for C9: one success and one failure produce a digest listing
only the success; a single failure suppresses the digest. -/
theorem digest_omits_failed_pairs_witness :
    send_periodic_notification [("A", some 2), ("B", none)] =
      some [("A", (2 : ℚ))] ∧
    send_periodic_notification [("B", (none : Option ℚ))] = none := by
  have h1 := digest_omits_failed_pairs [("A", some 2), ("B", none)]
  have h2 := digest_omits_failed_pairs [("B", none)]
  refine ⟨?_, h2.1 (by simp)⟩
  have h3 := h1.2.1 ⟨("A", some 2), by simp, by simp⟩
  simpa using h3
